import Mathlib

/-!
# go-collector: the resilient streaming ingestion loop

A shallow embedding of `Go/Crypto_bot_project/go-collector/main.go`.

* `BinanceTicker`, `unmarshal`: the struct of lines 14-17 and the call
  `json.Unmarshal(message, &ticker)` of line 81, on parsed JSON values.
* `connectAndListen`: the function of lines 56-90, run against a scripted
  connection (what `Dial` and each `ReadMessage` return), producing the trace of
  the effects it performs and how the call ends.
* `mainLoop`: the `for` loop of lines 39-52 of `main`.
* `sysStep`: the connector's read loop and the consumer goroutine of lines 30-35
  as two processes meeting on the unbuffered channel of line 26.
-/

namespace GoCollector

/-! ## Errors -/

/-- A non-nil Go `error` value. `net` stands for whatever `Dial` or `ReadMessage`
report; the two `json` constructors are the errors `json.Unmarshal` returns.
A Go result of type `error` is an `Option GoError`, `none` being `nil`. -/
inductive GoError where
  | net (msg : String)
  | jsonSyntax
  | jsonType (value : String) (field : String)
  deriving DecidableEq, Repr

/-! ## JSON values and the decoding of a frame -/

/-- A parsed JSON value. A number keeps its literal text. -/
inductive JValue where
  | null
  | bool (b : Bool)
  | num (lit : String)
  | str (s : String)
  | arr (items : List JValue)
  | obj (members : List (String × JValue))
  deriving Repr

/-- The payload of one websocket message, as `json.Unmarshal` sees it: bytes
that are not JSON text (`malformed`, with the text), or JSON text (`valid`, with
its value; object members in document order). -/
inductive Frame where
  | malformed (raw : String)
  | valid (v : JValue)
  deriving Repr

/-- The deepest nesting `encoding/json` accepts (`maxNestingDepth`): its scanner
reports "exceeded max depth" when more arrays and objects than this are open. -/
def maxNestingDepth : Nat := 10000

mutual
/-- The nesting depth of a value: the largest number of arrays and objects open
at once while it is scanned. A scalar has depth 0, an empty array or object 1. -/
def JValue.depth : JValue → Nat
  | .arr items => depthItems items + 1
  | .obj members => depthMembers members + 1
  | _ => 0
/-- The largest depth among the items of an array. -/
def depthItems : List JValue → Nat
  | [] => 0
  | v :: vs => max v.depth (depthItems vs)
/-- The largest depth among the member values of an object. -/
def depthMembers : List (String × JValue) → Nat
  | [] => 0
  | kv :: ms => max kv.2.depth (depthMembers ms)
end

/-- Lines 14-17: `type BinanceTicker struct`, two string fields tagged
`json:"s"` and `json:"c"`. -/
structure BinanceTicker where
  Symbol : String
  Price : String
  deriving DecidableEq, Repr

/-- Line 79: `var ticker BinanceTicker`, the zero value, fresh in every iteration. -/
def BinanceTicker.zero : BinanceTicker := ⟨"", ""⟩

/-- The two fields of `BinanceTicker`. -/
inductive Field where
  | Symbol
  | Price
  deriving DecidableEq, Repr

/-- The field an object key is stored into. `encoding/json` matches a key against
the tag names `s` and `c`, "preferring an exact match but also accepting a
case-insensitive match": the keys folding to `s` are `s`, `S` and the long s
(U+017F), those folding to `c` are `c` and `C`. Any other key matches no field. -/
def fieldOf (key : String) : Option Field :=
  if key = "s" then some .Symbol
  else if key = "c" then some .Price
  else if key = "S" ∨ key = "ſ" then some .Symbol
  else if key = "C" then some .Price
  else none

/-- The JSON tag name of a field. -/
def Field.tag : Field → String
  | .Symbol => "s"
  | .Price => "c"

/-- The name `encoding/json` gives a value's kind in an `UnmarshalTypeError`. -/
def JValue.kindName : JValue → String
  | .null => "null"
  | .bool _ => "bool"
  | .num _ => "number"
  | .str _ => "string"
  | .arr _ => "array"
  | .obj _ => "object"

/-- The decoder state while an object is decoded: the struct being filled and the
first saved error (`d.savedError`). -/
structure DecodeState where
  ticker : BinanceTicker
  saved : Option GoError
  deriving Repr

/-- Keeps the first error only, as `saveError` does. -/
def DecodeState.saveError (d : DecodeState) (e : GoError) : DecodeState :=
  match d.saved with
  | none => { d with saved := some e }
  | some _ => d

/-- Stores a string into a field. -/
def BinanceTicker.set (t : BinanceTicker) (f : Field) (s : String) : BinanceTicker :=
  match f with
  | .Symbol => { t with Symbol := s }
  | .Price => { t with Price := s }

/-- Decodes one object member. A key matching no field is skipped with its value.
For a matching key: a string is stored (a later member overwrites an earlier
one), `null` leaves the field as it is, any other value saves an
`UnmarshalTypeError` and decoding goes on. -/
def storeMember (d : DecodeState) (kv : String × JValue) : DecodeState :=
  match fieldOf kv.1 with
  | none => d
  | some f =>
    match kv.2 with
    | .str s => { d with ticker := d.ticker.set f s }
    | .null => d
    | v => d.saveError (.jsonType v.kindName f.tag)

/-- The decoding of a scanned value into a zero `ticker`. A top-level `null`
stores nothing and is no error. A top-level value that is neither `null` nor an
object is an `UnmarshalTypeError`. An object is decoded member by member and the
saved error, if any, is the result. -/
def decodeValue : JValue → Except GoError BinanceTicker
  | .null => .ok BinanceTicker.zero
  | .obj members =>
    let d := members.foldl storeMember ⟨BinanceTicker.zero, none⟩
    match d.saved with
    | none => .ok d.ticker
    | some e => .error e
  | v => .error (.jsonType v.kindName "")

/-- Line 81: `json.Unmarshal(message, &ticker)` on a zero `ticker`. The call first
scans the whole message: bytes that are not JSON text, and JSON text nested deeper
than `maxNestingDepth`, give a `SyntaxError` and nothing is decoded. Otherwise the
value is decoded. -/
def unmarshal : Frame → Except GoError BinanceTicker
  | .malformed _ => .error .jsonSyntax
  | .valid v => if maxNestingDepth < v.depth then .error .jsonSyntax else decodeValue v

/-! ## Effects and the connector -/

/-- What one call `c.ReadMessage()` returns: a message, or a non-nil error. -/
inductive ReadResult where
  | msg (f : Frame)
  | fail (e : GoError)
  deriving Repr

/-- The diagnostic lines the program logs. -/
inductive LogMsg where
  | connecting
  | connected
  | jsonError (e : GoError)
  | connError (e : GoError)
  | retrying
  deriving DecidableEq, Repr

/-- `time.Second` in nanoseconds, the unit of `time.Duration`. -/
def Second : Nat := 1000000000

/-- The effects of the program, each recorded when the call completes: `dial`
with the error `Dial` returned (`none` for a successful dial), `read` for a
`ReadMessage` that returned, `send v` for a completed `ch <- v`, `close` for the
deferred `c.Close()`, `sleep d` for `time.Sleep(d)`. -/
inductive Event where
  | log (m : LogMsg)
  | dial (err : Option GoError)
  | read
  | send (v : String)
  | close
  | sleep (d : Nat)
  deriving DecidableEq, Repr

/-- How a call ends: it returns a Go `error` (`none` is `nil`), or it is still
blocked in `ReadMessage` when the script of the connection is used up. -/
inductive Outcome where
  | returned (err : Option GoError)
  | blocked
  deriving DecidableEq, Repr

/-- A run of a call: the effects performed, in order, and how it ended. -/
structure Run where
  trace : List Event
  result : Outcome
  deriving DecidableEq, Repr

/-- One connection attempt as the network presents it: the error of `Dial`
(`none` when the dial succeeds) and what the successive `ReadMessage` calls on
the connection return. -/
structure Session where
  dial : Option GoError
  reads : List ReadResult
  deriving Repr

/-- Lines 71-89, the `for` loop of `connectAndListen`. A failed read returns its
error. A message that does not decode is logged and skipped (`continue`). A
decoded message has its `Price` sent on the channel. -/
def readLoop : List ReadResult → Run
  | [] => ⟨[], .blocked⟩
  | .fail e :: _ => ⟨[.read], .returned (some e)⟩
  | .msg m :: rest =>
    let r := readLoop rest
    match unmarshal m with
    | .error e => ⟨.read :: .log (.jsonError e) :: r.trace, r.result⟩
    | .ok ticker => ⟨.read :: .send ticker.Price :: r.trace, r.result⟩

/-- Lines 56-90: `connectAndListen`. A failed dial returns its error at once. After
a successful dial `c.Close()` is deferred: it runs when the read loop returns. -/
def connectAndListen (s : Session) : Run :=
  match s.dial with
  | some e => ⟨[.dial (some e)], .returned (some e)⟩
  | none =>
    let r := readLoop s.reads
    match r.result with
    | .returned err => ⟨.dial none :: .log .connected :: (r.trace ++ [.close]), .returned err⟩
    | .blocked => ⟨.dial none :: .log .connected :: r.trace, .blocked⟩

/-- The values sent on the channel, in order. -/
def sends : List Event → List String
  | [] => []
  | .send v :: es => v :: sends es
  | _ :: es => sends es

/-- The first error among the results of the reads, if any read fails. -/
def firstReadError : List ReadResult → Option GoError
  | [] => none
  | .fail e :: _ => some e
  | .msg _ :: rest => firstReadError rest

/-- The price line 88 publishes for a frame: the `Price` of the decoded ticker,
and nothing when line 81 reports an error. -/
def published (f : Frame) : Option String :=
  match unmarshal f with
  | .ok ticker => some ticker.Price
  | .error _ => none

/-! ## Frames of the feed -/

/-- Whether a value is the JSON string `s`. -/
def JValue.isStr (v : JValue) (s : String) : Bool :=
  match v with
  | .str t => decide (t = s)
  | _ => false

/-- Whether an object has a member with this key. -/
def hasKey (key : String) (members : List (String × JValue)) : Bool :=
  members.any fun kv => decide (kv.1 = key)

/-- The test on one member of a ticker object: a member keyed `s` holds the
string `sym`, a member keyed `c` holds the string `price`, and any other key
satisfies `extra`. -/
def tickerMember (extra : String → Bool) (sym price : String) (kv : String × JValue) : Bool :=
  if kv.1 = "s" then kv.2.isStr sym
  else if kv.1 = "c" then kv.2.isStr price
  else extra kv.1

/-- The members of a ticker object: every member passes `tickerMember`, and both
keys `s` and `c` occur. -/
def tickerMembers (extra : String → Bool) (sym price : String)
    (members : List (String × JValue)) : Bool :=
  members.all (tickerMember extra sym price) && hasKey "s" members && hasKey "c" members

/-- A frame that is a JSON object with the string `sym` under `s`, the string
`price` under `c`, and any further members whose keys are other than `s` and `c`. -/
def isPermissiveTickerFrame (f : Frame) (sym price : String) : Bool :=
  match f with
  | .valid (.obj members) => tickerMembers (fun _ => true) sym price members
  | _ => false

/-- A frame that is a JSON object with the string `sym` under `s`, the string
`price` under `c`, and any further members whose keys match neither field of
`BinanceTicker` (so none of `S`, the long s, `C`), the whole nested no deeper than
`maxNestingDepth`. -/
def isTickerFrame (f : Frame) (sym price : String) : Bool :=
  match f with
  | .valid (.obj members) =>
    tickerMembers (fun k => (fieldOf k).isNone) sym price members
      && decide ((JValue.obj members).depth ≤ maxNestingDepth)
  | _ => false

/-- Whether a frame carries a member keyed exactly `key` (only an object can). -/
def Frame.hasKey (f : Frame) (key : String) : Bool :=
  match f with
  | .valid (.obj members) => GoCollector.hasKey key members
  | _ => false

/-- Whether a frame carries a member whose key is stored into the field `fld`. -/
def Frame.hasField (f : Frame) (fld : Field) : Bool :=
  match f with
  | .valid (.obj members) => members.any fun kv => decide (fieldOf kv.1 = some fld)
  | _ => false

/-- Whether line 81 reports no error for the frame. -/
def decodes (f : Frame) : Bool :=
  match unmarshal f with
  | .ok _ => true
  | .error _ => false

/-- The frames among the results of the reads up to the first failed read: the
messages the read loop gets to see. -/
def framesRead : List ReadResult → List Frame
  | [] => []
  | .fail _ :: _ => []
  | .msg f :: rest => f :: framesRead rest

/-! ## The supervisor loop of `main` -/

/-- Where the control of `main` is: at the top of the `for` body (line 40), inside
the call of `connectAndListen` (line 43), or past it (lines 46-51). -/
inductive Phase where
  | Connecting
  | Streaming
  | Backoff
  deriving DecidableEq, Repr

/-- The state of the supervisor: its phase, the number of calls of
`connectAndListen` made so far, and the effects performed so far. -/
structure MainState where
  phase : Phase
  attempts : Nat
  trace : List Event
  deriving DecidableEq, Repr

/-- The state when the loop of line 39 is entered. -/
def MainState.init : MainState := ⟨.Connecting, 0, []⟩

/-- Lines 40 and 43: log, then call `connectAndListen`. -/
def MainState.connect (st : MainState) : MainState :=
  ⟨.Streaming, st.attempts + 1, st.trace ++ [.log .connecting]⟩

/-- Lines 43-48: the call runs. When it returns, a non-nil error is logged and a
nil one is not; either way control goes on to line 50. When it does not return,
control stays inside it. -/
def MainState.stream (st : MainState) (r : Run) : MainState :=
  match r.result with
  | .blocked => ⟨.Streaming, st.attempts, st.trace ++ r.trace⟩
  | .returned none => ⟨.Backoff, st.attempts, st.trace ++ r.trace⟩
  | .returned (some e) => ⟨.Backoff, st.attempts, st.trace ++ r.trace ++ [.log (.connError e)]⟩

/-- Lines 50-51: log, `time.Sleep(5 * time.Second)`, and back to the top of the loop. -/
def MainState.backoff (st : MainState) : MainState :=
  ⟨.Connecting, st.attempts, st.trace ++ [.log .retrying, .sleep (5 * Second)]⟩

/-- One step of the supervisor from any phase; `r` is the run of the call in
progress, looked at only while control is inside the call. -/
def MainState.step (st : MainState) (r : Run) : MainState :=
  match st.phase with
  | .Connecting => st.connect
  | .Streaming => st.stream r
  | .Backoff => st.backoff

/-- The cycle of the phases. -/
def Phase.next : Phase → Phase
  | .Connecting => .Streaming
  | .Streaming => .Backoff
  | .Backoff => .Connecting

/-- One pass through the body of the `for` of lines 39-52, given the run of the
call of line 43. -/
def iteration (st : MainState) (r : Run) : MainState :=
  let st1 := st.connect.stream r
  match st1.phase with
  | .Backoff => st1.backoff
  | _ => st1

/-- The loop of lines 39-52 against the runs of the successive calls of
`connectAndListen`. The loop has no `break` and no `return`: when the runs are
used up control is at the top of the body again, and a call that does not return
keeps control inside it. -/
def supervise : MainState → List Run → MainState
  | st, [] => st
  | st, r :: rs =>
    match st.phase with
    | .Connecting => supervise (iteration st r) rs
    | _ => st

/-- The loop of `main` against a script of connection attempts. -/
def mainLoop (sessions : List Session) : MainState :=
  supervise MainState.init (sessions.map connectAndListen)

/-- The effects of one pass through the loop body around a call that returns `err`
after performing `tr`. -/
def passTrace (tr : List Event) (err : Option GoError) : List Event :=
  .log .connecting :: tr
    ++ (match err with
        | some e => [.log (.connError e)]
        | none => [])
    ++ [.log .retrying, .sleep (5 * Second)]

/-- The durations slept, in order. -/
def sleeps : List Event → List Nat
  | [] => []
  | .sleep d :: es => d :: sleeps es
  | _ :: es => sleeps es

/-- The number of dials in a trace. -/
def dials : List Event → Nat
  | [] => 0
  | .dial _ :: es => dials es + 1
  | _ :: es => dials es

/-- Scans a trace keeping whether a connection is open. The scan fails (`none`)
on a dial while a connection is open and on a read, send or close while none is. -/
def connScan : Bool → List Event → Option Bool
  | o, [] => some o
  | o, .dial err :: es => if o then none else connScan err.isNone es
  | o, .close :: es => if o then connScan false es else none
  | o, .read :: es => if o then connScan true es else none
  | o, .send _ :: es => if o then connScan true es else none
  | o, .log _ :: es => connScan o es
  | o, .sleep _ :: es => connScan o es

/-! ## The connector and the sink on the unbuffered channel -/

/-- Where the connector's read loop is: in `ReadMessage` (line 72), in the send
of line 88 with a decoded price in hand, or returned. -/
inductive ConnPc where
  | reading
  | sending (v : String)
  | done (e : GoError)
  deriving DecidableEq, Repr

/-- Where the goroutine of lines 30-35 is: in the receive of line 31, or busy with
a received price (line 33). -/
inductive SinkPc where
  | receiving
  | busy (v : String)
  deriving DecidableEq, Repr

/-- The two goroutines and the history of the channel `priceChan` of line 26,
which has no buffer: `decoded` are the prices line 81 has produced, `sent` the
completed sends, `received` the completed receives. -/
structure Sys where
  reads : List ReadResult
  conn : ConnPc
  sink : SinkPc
  decoded : List String
  sent : List String
  received : List String
  deriving Repr

/-- Which goroutine the scheduler runs next. -/
inductive Proc where
  | connector
  | sink
  deriving DecidableEq, Repr

/-- The start: the connection is dialled, the sink waits in its receive. -/
def Sys.init (reads : List ReadResult) : Sys :=
  ⟨reads, .reading, .receiving, [], [], []⟩

/-- The send and the receive complete together: the value passes from the
connector to the sink. -/
def Sys.handoff (s : Sys) (v : String) : Sys :=
  { s with conn := .reading, sink := .busy v, sent := s.sent ++ [v], received := s.received ++ [v] }

/-- One step of the connector in `ReadMessage`: the body of the loop of lines
71-89 up to the send. With no further result the read stays blocked. -/
def Sys.readStep (s : Sys) : Sys :=
  match s.reads with
  | [] => s
  | .fail e :: rest => { s with reads := rest, conn := .done e }
  | .msg f :: rest =>
    match unmarshal f with
    | .error _ => { s with reads := rest }
    | .ok ticker =>
      { s with reads := rest, conn := .sending ticker.Price, decoded := s.decoded ++ [ticker.Price] }

/-- One scheduling step. A goroutine at the channel proceeds only when the other
one is at the channel too; otherwise it stays blocked, and the step changes nothing. -/
def sysStep (s : Sys) (p : Proc) : Sys :=
  match p, s.conn, s.sink with
  | .connector, .reading, _ => s.readStep
  | .connector, .sending v, .receiving => s.handoff v
  | .connector, .sending _, .busy _ => s
  | .connector, .done _, _ => s
  | .sink, _, .busy _ => { s with sink := .receiving }
  | .sink, .sending v, .receiving => s.handoff v
  | .sink, _, .receiving => s

/-- The system after a schedule, from the start. -/
def sysRun (reads : List ReadResult) (schedule : List Proc) : Sys :=
  schedule.foldl sysStep (Sys.init reads)

/-- The price in flight: decoded and not yet handed over. -/
def ConnPc.inFlight : ConnPc → List String
  | .sending v => [v]
  | _ => []

/-- The prices the connector has still to decode and send: those of the reads
left, unless it has returned. -/
def Sys.remaining (s : Sys) : List String :=
  match s.conn with
  | .done _ => []
  | _ => sends (readLoop s.reads).trace

/-- The invariant of the handoff, for a system started on `reads0`: every send is a
receive, every decoded price is received or in flight, and the decoded prices with
those still to come are the prices the read loop sends on `reads0`. -/
def SysInv (reads0 : List ReadResult) (s : Sys) : Prop :=
  s.sent = s.received
  ∧ s.decoded = s.received ++ s.conn.inFlight
  ∧ s.decoded ++ s.remaining = sends (readLoop reads0).trace

/-- A schedule that serves the reads one by one: the connector reads, and for a
frame that decodes it sends and the sink finishes with the value. -/
def deliverSchedule : List ReadResult → List Proc
  | [] => []
  | .fail _ :: _ => [.connector]
  | .msg f :: rest =>
    (if decodes f then [.connector, .connector, .sink] else [.connector]) ++ deliverSchedule rest

/-- A schedule that, from any state, lets the sink finish and take the price in
flight, and then serves the reads left. -/
def drainSchedule (s : Sys) : List Proc :=
  [.sink, .sink, .sink] ++ deliverSchedule s.reads

/-! ## The scenario of the specification -/

/-- The first valid frame of the scenario. -/
def frameA : Frame := .valid (.obj [("s", .str "BTCUSDT"), ("c", .str "65000.10")])

/-- The second valid frame of the scenario. -/
def frameB : Frame := .valid (.obj [("s", .str "BTCUSDT"), ("c", .str "65000.25")])

/-- The bytes `not-json` of the scenario. -/
def notJson : Frame := .malformed "not-json"

/-- A ticker frame with a further member keyed `C` holding a number:
`{"s":"BTCUSDT","c":"65000.10","C":1}`. -/
def frameUpperC : Frame :=
  .valid (.obj [("s", .str "BTCUSDT"), ("c", .str "65000.10"), ("C", .num "1")])

/-- A ticker frame with a further member keyed `C` holding a string:
`{"s":"BTCUSDT","c":"65000.10","C":"2"}`. -/
def frameUpperCStr : Frame :=
  .valid (.obj [("s", .str "BTCUSDT"), ("c", .str "65000.10"), ("C", .str "2")])

/-- The value `null` inside `n` arrays, one in the other. -/
def nestArr : Nat → JValue
  | 0 => .null
  | n + 1 => .arr [nestArr n]

/-- A ticker frame with a further member keyed `x` that holds `null` inside `n`
arrays. -/
def deepFrame (n : Nat) : Frame :=
  .valid (.obj [("s", .str "BTCUSDT"), ("c", .str "65000.10"), ("x", nestArr n)])

/-- The ticker frame whose member `x` holds `null` inside 10000 arrays: with the
object itself, 10001 levels. -/
def frameDeep : Frame := deepFrame maxNestingDepth

/-- A frame with a price under `C` only: `{"C":"5"}`. -/
def frameOnlyUpperC : Frame := .valid (.obj [("C", .str "5")])

/-- A ticker frame with further members that match no field:
`{"e":"24hrMiniTicker","E":1700000000000,"s":"BTCUSDT","c":"65000.10","o":"64000.00","x":[null,{}]}`. -/
def frameMiniTicker : Frame :=
  .valid (.obj [("e", .str "24hrMiniTicker"), ("E", .num "1700000000000"),
    ("s", .str "BTCUSDT"), ("c", .str "65000.10"), ("o", .str "64000.00"),
    ("x", .arr [.null, .obj []])])

/-- A frame without price: `{"s":"BTCUSDT"}`. -/
def frameNoPrice : Frame := .valid (.obj [("s", .str "BTCUSDT")])

/-! ## Decoding lemmas -/

theorem JValue.isStr_iff (v : JValue) (s : String) : v.isStr s = true ↔ v = .str s := by
  cases v <;> simp [JValue.isStr]

theorem storeMember_unmatched (d : DecodeState) (kv : String × JValue)
    (h : fieldOf kv.1 = none) : storeMember d kv = d := by
  simp [storeMember, h]

theorem storeMember_str (d : DecodeState) (k s : String) (f : Field)
    (h : fieldOf k = some f) :
    storeMember d (k, .str s) = { d with ticker := d.ticker.set f s } := by
  simp [storeMember, h]

theorem hasKey_cons_ne (key k : String) (v : JValue) (ms : List (String × JValue))
    (h : k ≠ key) : hasKey key ((k, v) :: ms) = hasKey key ms := by
  simp only [hasKey, List.any_cons, decide_eq_false h, Bool.false_or]

theorem hasKey_cons_self (key : String) (v : JValue) (ms : List (String × JValue)) :
    hasKey key ((key, v) :: ms) = true := by
  simp only [hasKey, List.any_cons, decide_True, Bool.true_or]

/-- Decoding the members of a ticker object whose further keys match no field saves
no error and leaves `sym` and `price` in the fields whose keys occur. -/
theorem foldl_storeMember_ticker (sym price : String) (ms : List (String × JValue))
    (h : ∀ kv ∈ ms, tickerMember (fun k => (fieldOf k).isNone) sym price kv = true)
    (d : DecodeState) (hd : d.saved = none) :
    (ms.foldl storeMember d).saved = none
    ∧ (ms.foldl storeMember d).ticker.Symbol
        = (if hasKey "s" ms = true then sym else d.ticker.Symbol)
    ∧ (ms.foldl storeMember d).ticker.Price
        = (if hasKey "c" ms = true then price else d.ticker.Price) := by
  induction ms generalizing d with
  | nil => simp [hasKey, hd]
  | cons kv ms ih =>
    have hkv := h kv (List.mem_cons_self _ _)
    have hms : ∀ x ∈ ms, tickerMember (fun k => (fieldOf k).isNone) sym price x = true :=
      fun x hx => h x (List.mem_cons_of_mem _ hx)
    obtain ⟨k, v⟩ := kv
    simp only [List.foldl_cons]
    unfold tickerMember at hkv
    by_cases hs : k = "s"
    · subst hs
      simp only [if_true] at hkv
      rw [JValue.isStr_iff] at hkv
      subst hkv
      rw [storeMember_str d "s" sym .Symbol (by decide)]
      obtain ⟨h1, h2, h3⟩ := ih hms { d with ticker := d.ticker.set .Symbol sym } hd
      refine ⟨h1, ?_, ?_⟩
      · rw [h2, hasKey_cons_self]; simp [BinanceTicker.set]
      · rw [h3, hasKey_cons_ne "c" "s" _ _ (by decide)]; simp [BinanceTicker.set]
    · by_cases hc : k = "c"
      · subst hc
        simp only [hs, if_false, if_true] at hkv
        rw [JValue.isStr_iff] at hkv
        subst hkv
        rw [storeMember_str d "c" price .Price (by decide)]
        obtain ⟨h1, h2, h3⟩ := ih hms { d with ticker := d.ticker.set .Price price } hd
        refine ⟨h1, ?_, ?_⟩
        · rw [h2, hasKey_cons_ne "s" "c" _ _ (by decide)]; simp [BinanceTicker.set]
        · rw [h3, hasKey_cons_self]; simp [BinanceTicker.set]
      · simp only [hs, hc, if_false, Option.isNone_iff_eq_none] at hkv
        rw [storeMember_unmatched d (k, v) hkv]
        obtain ⟨h1, h2, h3⟩ := ih hms d hd
        refine ⟨h1, ?_, ?_⟩
        · rw [h2, hasKey_cons_ne "s" k _ _ hs]
        · rw [h3, hasKey_cons_ne "c" k _ _ hc]

theorem unmarshal_cases (f : Frame) :
    (∃ t, unmarshal f = .ok t) ∨ ∃ e, unmarshal f = .error e := by
  cases unmarshal f <;> simp

theorem unmarshal_of_depth_le (v : JValue) (h : v.depth ≤ maxNestingDepth) :
    unmarshal (.valid v) = decodeValue v := by
  simp [unmarshal, Nat.not_lt.mpr h]

theorem unmarshal_of_depth_gt (v : JValue) (h : maxNestingDepth < v.depth) :
    unmarshal (.valid v) = .error .jsonSyntax := by
  simp [unmarshal, h]

/-- A frame that decodes is JSON text within the nesting limit, and its value
decodes to the same ticker. -/
theorem decodeValue_of_unmarshal (v : JValue) (t : BinanceTicker)
    (h : unmarshal (.valid v) = .ok t) : decodeValue v = .ok t := by
  by_cases hd : maxNestingDepth < v.depth
  · rw [unmarshal_of_depth_gt v hd] at h; cases h
  · rwa [unmarshal_of_depth_le v (Nat.not_lt.mp hd)] at h

/-- A ticker frame whose further keys match no field decodes to its symbol and price. -/
theorem unmarshal_tickerFrame (f : Frame) (sym price : String)
    (h : isTickerFrame f sym price = true) : unmarshal f = .ok ⟨sym, price⟩ := by
  match f, h with
  | .valid (.obj ms), h =>
    simp only [isTickerFrame, tickerMembers, Bool.and_eq_true, List.all_eq_true,
      decide_eq_true_eq] at h
    obtain ⟨⟨⟨hall, hs⟩, hc⟩, hdepth⟩ := h
    obtain ⟨h1, h2, h3⟩ := foldl_storeMember_ticker sym price ms hall
      ⟨BinanceTicker.zero, none⟩ rfl
    rw [unmarshal_of_depth_le _ hdepth]
    simp only [decodeValue, h1]
    rw [hs] at h2
    rw [hc] at h3
    simp only [if_true] at h2 h3
    congr 1
    cases hd : (List.foldl storeMember ⟨BinanceTicker.zero, none⟩ ms).ticker
    rw [hd] at h2 h3
    simp_all

theorem published_tickerFrame (f : Frame) (sym price : String)
    (h : isTickerFrame f sym price = true) : published f = some price := by
  simp [published, unmarshal_tickerFrame f sym price h]

theorem published_of_not_decodes (f : Frame) (h : decodes f = false) : published f = none := by
  unfold decodes at h
  unfold published
  cases hu : unmarshal f <;> simp_all

/-! ## The read loop -/

theorem sends_append (a b : List Event) : sends (a ++ b) = sends a ++ sends b := by
  induction a with
  | nil => rfl
  | cons x xs ih => cases x <;> simp [sends, ih]

/-- A message never ends the loop, and contributes its published price, if any. -/
theorem readLoop_msg (f : Frame) (rest : List ReadResult) :
    (readLoop (.msg f :: rest)).result = (readLoop rest).result
    ∧ sends (readLoop (.msg f :: rest)).trace
        = (published f).toList ++ sends (readLoop rest).trace := by
  simp only [readLoop, published]
  cases unmarshal f <;> simp [sends]

theorem readLoop_msgs (frames : List Frame) (rest : List ReadResult) :
    (readLoop (frames.map .msg ++ rest)).result = (readLoop rest).result
    ∧ sends (readLoop (frames.map .msg ++ rest)).trace
        = frames.filterMap published ++ sends (readLoop rest).trace := by
  induction frames with
  | nil => simp
  | cons f fs ih =>
    obtain ⟨h1, h2⟩ := readLoop_msg f (fs.map .msg ++ rest)
    simp only [List.map_cons, List.cons_append]
    refine ⟨h1.trans ih.1, ?_⟩
    rw [h2, ih.2]
    cases hp : published f <;> simp [List.filterMap_cons, hp]

theorem readLoop_fail (e : GoError) (rest : List ReadResult) :
    readLoop (.fail e :: rest) = ⟨[.read], .returned (some e)⟩ := rfl

/-- The loop returns exactly the first read error, and is blocked when no read fails. -/
theorem readLoop_result (reads : List ReadResult) :
    (readLoop reads).result =
      (match firstReadError reads with
       | some e => .returned (some e)
       | none => .blocked) := by
  induction reads with
  | nil => rfl
  | cons r rest ih =>
    cases r with
    | fail e => rfl
    | msg f => rw [(readLoop_msg f rest).1, ih]; rfl

theorem connectAndListen_dial_ok (reads : List ReadResult) :
    (connectAndListen ⟨none, reads⟩).result = (readLoop reads).result
    ∧ sends (connectAndListen ⟨none, reads⟩).trace = sends (readLoop reads).trace := by
  simp only [connectAndListen]
  cases h : (readLoop reads).result <;> simp [sends, sends_append]

theorem filterMap_published_ticks (ticks : List (Frame × String × String))
    (h : ∀ t ∈ ticks, isTickerFrame t.1 t.2.1 t.2.2 = true) :
    (ticks.map (fun t => t.1)).filterMap published = ticks.map (fun t => t.2.2) := by
  induction ticks with
  | nil => rfl
  | cons t ts ih =>
    have ht := published_tickerFrame t.1 t.2.1 t.2.2 (h t (List.mem_cons_self _ _))
    have hts := ih (fun x hx => h x (List.mem_cons_of_mem _ hx))
    simp [List.filterMap_cons, ht, hts]

theorem sends_connect_msg (f : Frame) (rest : List ReadResult) :
    sends (connectAndListen ⟨none, .msg f :: rest⟩).trace
      = (published f).toList ++ sends (connectAndListen ⟨none, rest⟩).trace := by
  rw [(connectAndListen_dial_ok _).2, (connectAndListen_dial_ok _).2, (readLoop_msg f rest).2]

theorem depth_arr (items : List JValue) :
    (JValue.arr items).depth = depthItems items + 1 := by
  rw [JValue.depth]

theorem depth_obj (members : List (String × JValue)) :
    (JValue.obj members).depth = depthMembers members + 1 := by
  rw [JValue.depth]

theorem depth_str (s : String) : (JValue.str s).depth = 0 := by
  simp [JValue.depth]

theorem depth_nestArr (n : Nat) : (nestArr n).depth = n := by
  induction n with
  | zero => rfl
  | succ n ih =>
    rw [nestArr, depth_arr, depthItems, depthItems, ih]
    simp

/-- A frame with a member inside `n` arrays: with the object itself, `n + 1` levels. -/
theorem depth_deepFrame (n : Nat) :
    (JValue.obj [("s", .str "BTCUSDT"), ("c", .str "65000.10"), ("x", nestArr n)]).depth
      = n + 1 := by
  rw [depth_obj, depthMembers, depthMembers, depthMembers, depthMembers, depth_nestArr,
    depth_str, depth_str]
  simp

/-- A frame of more levels than the limit is rejected by the scan. -/
theorem unmarshal_deepFrame (n : Nat) (h : maxNestingDepth < n + 1) :
    unmarshal (deepFrame n) = .error .jsonSyntax := by
  unfold deepFrame
  apply unmarshal_of_depth_gt
  rw [depth_deepFrame]
  exact h

theorem published_of_unmarshal_error (f : Frame) (e : GoError)
    (h : unmarshal f = .error e) : published f = none := by
  unfold published
  rw [h]

/-- The frame of 10001 levels is rejected by the scan. -/
theorem unmarshal_frameDeep : unmarshal frameDeep = .error .jsonSyntax :=
  unmarshal_deepFrame maxNestingDepth (Nat.lt_succ_self _)

theorem published_frameDeep : published frameDeep = none :=
  published_of_unmarshal_error frameDeep _ unmarshal_frameDeep

theorem isPermissiveTickerFrame_deepFrame (n : Nat) :
    isPermissiveTickerFrame (deepFrame n) "BTCUSDT" "65000.10" = true := by
  simp [isPermissiveTickerFrame, deepFrame, tickerMembers, tickerMember, hasKey, JValue.isStr]

theorem isPermissiveTickerFrame_frameDeep :
    isPermissiveTickerFrame frameDeep "BTCUSDT" "65000.10" = true :=
  isPermissiveTickerFrame_deepFrame maxNestingDepth

/-! ## Claims C1-C4 -/

/-- Counterexample to C1 as stated, at two frames that are JSON objects with the
strings `BTCUSDT` under `s` and `65000.10` under `c`. For
`{"s":"BTCUSDT","c":"65000.10","C":"2"}` the value sent is `2`, not the string
under `c`. The frame whose further member `x` is nested 10000 arrays deep is
rejected by the scan and nothing is sent for it. -/
theorem connectAndListen_ordering_counterexample :
    isPermissiveTickerFrame frameUpperCStr "BTCUSDT" "65000.10" = true
    ∧ sends (connectAndListen ⟨none, [.msg frameUpperCStr, .fail (.net "EOF")]⟩).trace = ["2"]
    ∧ isPermissiveTickerFrame frameDeep "BTCUSDT" "65000.10" = true
    ∧ sends (connectAndListen ⟨none, [.msg frameDeep, .fail (.net "EOF")]⟩).trace = [] :=
  ⟨by decide, by decide, isPermissiveTickerFrame_frameDeep, by
    rw [sends_connect_msg, published_frameDeep]; rfl⟩

/-- C1, amended (P1, ordering). For every list of valid frames (objects holding a
string under `s` and a string under `c`, each given with its symbol and price,
with no further key that matches a field, so none of `S`, `C` and the long s, and
nested no deeper than `maxNestingDepth`) returned by the successive reads of one
successfully dialled connection and followed by a read error, the values
`connectAndListen` sends on the channel are exactly the prices of the frames, in
the order of the frames, one per frame. -/
theorem connectAndListen_ordering (ticks : List (Frame × String × String)) (e : GoError)
    (hvalid : ∀ t ∈ ticks, isTickerFrame t.1 t.2.1 t.2.2 = true) :
    sends (connectAndListen ⟨none, ticks.map (fun t => .msg t.1) ++ [.fail e]⟩).trace
      = ticks.map (fun t => t.2.2)
    ∧ (sends (connectAndListen ⟨none, ticks.map (fun t => .msg t.1) ++ [.fail e]⟩).trace).length
      = ticks.length := by
  have hmap : ticks.map (fun t => ReadResult.msg t.1)
      = (ticks.map (fun t => t.1)).map ReadResult.msg := by
    simp [List.map_map, Function.comp_def]
  have hs : sends (connectAndListen ⟨none, ticks.map (fun t => .msg t.1) ++ [.fail e]⟩).trace
      = ticks.map (fun t => t.2.2) := by
    rw [(connectAndListen_dial_ok _).2, hmap, (readLoop_msgs _ _).2,
      filterMap_published_ticks ticks hvalid, readLoop_fail]
    simp [sends]
  exact ⟨hs, by rw [hs, List.length_map]⟩

/-- Witness of C1, amended: three frames, among them two with the same price. -/
theorem connectAndListen_ordering_witness :
    sends (connectAndListen ⟨none,
        [.msg frameA, .msg frameB, .msg frameA, .fail (.net "EOF")]⟩).trace
      = ["65000.10", "65000.25", "65000.10"] :=
  (connectAndListen_ordering
    [(frameA, "BTCUSDT", "65000.10"), (frameB, "BTCUSDT", "65000.25"),
     (frameA, "BTCUSDT", "65000.10")]
    (.net "EOF") (by decide)).1

/-- Counterexample to C2 as stated: the bytes `not-json` inserted between two
frames that are JSON objects with strings under `s` and `c`. With
`{"s":"BTCUSDT","c":"65000.10","C":"2"}` as the first frame the values sent are `2`
and `65000.25`, not the two prices. With the frame whose further member `x` is
nested 10000 arrays deep as the first frame only `65000.25` is sent. -/
theorem connectAndListen_skips_malformed_counterexample :
    isPermissiveTickerFrame frameUpperCStr "BTCUSDT" "65000.10" = true
    ∧ isPermissiveTickerFrame frameDeep "BTCUSDT" "65000.10" = true
    ∧ isPermissiveTickerFrame frameB "BTCUSDT" "65000.25" = true
    ∧ decodes notJson = false
    ∧ sends (connectAndListen ⟨none,
        [.msg frameUpperCStr, .msg notJson, .msg frameB, .fail (.net "EOF")]⟩).trace
      = ["2", "65000.25"]
    ∧ sends (connectAndListen ⟨none,
        [.msg frameDeep, .msg notJson, .msg frameB, .fail (.net "EOF")]⟩).trace
      = ["65000.25"] :=
  ⟨by decide, isPermissiveTickerFrame_frameDeep, by decide, by decide, by decide, by
    rw [sends_connect_msg, published_frameDeep]; rfl⟩

/-- C2, amended (P2, malformed-frame resilience). One frame that fails to decode,
inserted at any position among valid frames (objects holding a string under `s`
and a string under `c`, with no further key that matches a field, so none of `S`,
`C` and the long s, and nested no deeper than `maxNestingDepth`): the call does
not return at it (after it the call is back in `ReadMessage`, and with a later
read error it returns that error), nothing is sent for it, and the values sent are
the prices of the valid frames in their order. -/
theorem connectAndListen_skips_malformed (pre post : List (Frame × String × String))
    (bad : Frame) (e : GoError)
    (hpre : ∀ t ∈ pre, isTickerFrame t.1 t.2.1 t.2.2 = true)
    (hpost : ∀ t ∈ post, isTickerFrame t.1 t.2.1 t.2.2 = true)
    (hbad : decodes bad = false) :
    sends (connectAndListen ⟨none,
        pre.map (fun t => .msg t.1) ++ .msg bad :: (post.map (fun t => .msg t.1) ++ [.fail e])⟩).trace
      = pre.map (fun t => t.2.2) ++ post.map (fun t => t.2.2)
    ∧ (connectAndListen ⟨none,
        pre.map (fun t => .msg t.1) ++ .msg bad :: (post.map (fun t => .msg t.1) ++ [.fail e])⟩).result
      = .returned (some e)
    ∧ (connectAndListen ⟨none, pre.map (fun t => .msg t.1) ++ [.msg bad]⟩).result = .blocked
    ∧ sends (connectAndListen ⟨none, pre.map (fun t => .msg t.1) ++ [.msg bad]⟩).trace
      = pre.map (fun t => t.2.2) := by
  have hmap : ∀ l : List (Frame × String × String),
      l.map (fun t => ReadResult.msg t.1) = (l.map (fun t => t.1)).map ReadResult.msg := by
    intro l; simp [List.map_map, Function.comp_def]
  have hb := published_of_not_decodes bad hbad
  refine ⟨?_, ?_, ?_, ?_⟩
  · rw [(connectAndListen_dial_ok _).2, hmap pre, (readLoop_msgs _ _).2,
      filterMap_published_ticks pre hpre, (readLoop_msg _ _).2, hb, hmap post,
      (readLoop_msgs _ _).2, filterMap_published_ticks post hpost, readLoop_fail]
    simp [sends]
  · rw [(connectAndListen_dial_ok _).1, hmap pre, (readLoop_msgs _ _).1,
      (readLoop_msg _ _).1, hmap post, (readLoop_msgs _ _).1, readLoop_fail]
  · rw [(connectAndListen_dial_ok _).1, hmap pre, (readLoop_msgs _ _).1,
      (readLoop_msg _ _).1]
    rfl
  · rw [(connectAndListen_dial_ok _).2, hmap pre, (readLoop_msgs _ _).2,
      filterMap_published_ticks pre hpre, (readLoop_msg _ _).2, hb]
    simp [sends, readLoop]

/-- Witness of C2, amended: the scenario of the specification. The frames
`{"s":"BTCUSDT","c":"65000.10"}`, `not-json`, `{"s":"BTCUSDT","c":"65000.25"}` and
then a socket error give the sent list `65000.10`, `65000.25` and the error return. -/
theorem connectAndListen_skips_malformed_witness :
    decodes notJson = false
    ∧ sends (connectAndListen ⟨none,
        [.msg frameA, .msg notJson, .msg frameB, .fail (.net "socket error")]⟩).trace
      = ["65000.10", "65000.25"]
    ∧ (connectAndListen ⟨none,
        [.msg frameA, .msg notJson, .msg frameB, .fail (.net "socket error")]⟩).result
      = .returned (some (.net "socket error")) :=
  have h := connectAndListen_skips_malformed [(frameA, "BTCUSDT", "65000.10")]
    [(frameB, "BTCUSDT", "65000.25")] notJson (.net "socket error")
    (by decide) (by decide) (by decide)
  ⟨by decide, h.1, h.2.1⟩

/-- C3 (error propagation). After a successful dial the call returns exactly when
a read fails, with the first read error as its value; whether frames decode plays
no part, so an error of `json.Unmarshal` is never what is returned. After a failed
dial the call returns the dial error. The call never returns `nil`. -/
theorem connectAndListen_error_propagation (s : Session) :
    (s.dial = none →
      (connectAndListen s).result =
        (match firstReadError s.reads with
         | some e => .returned (some e)
         | none => .blocked))
    ∧ (∀ e, s.dial = some e → (connectAndListen s).result = .returned (some e))
    ∧ (connectAndListen s).result ≠ .returned none
    ∧ (∀ err, (connectAndListen s).result = .returned err →
        err ≠ none ∧ (err = s.dial ∨ (s.dial = none ∧ err = firstReadError s.reads)))
    ∧ (∀ (f : Frame) (rest : List ReadResult),
        (connectAndListen ⟨none, .msg f :: rest⟩).result
          = (connectAndListen ⟨none, rest⟩).result) := by
  obtain ⟨dial, reads⟩ := s
  have hfr : ∀ f rest, (connectAndListen ⟨none, .msg f :: rest⟩).result
      = (connectAndListen ⟨none, rest⟩).result := by
    intro f rest
    rw [(connectAndListen_dial_ok _).1, (connectAndListen_dial_ok _).1, (readLoop_msg f rest).1]
  cases dial with
  | some e =>
    refine ⟨(by intro h; cases h), ?_, ?_, ?_, hfr⟩
    · intro e' h; cases h; rfl
    · simp [connectAndListen]
    · intro err h
      simp only [connectAndListen, Outcome.returned.injEq] at h
      subst h
      exact ⟨by simp, Or.inl rfl⟩
  | none =>
    have hres : (connectAndListen ⟨none, reads⟩).result =
        (match firstReadError reads with
         | some e => .returned (some e)
         | none => .blocked) := by
      rw [(connectAndListen_dial_ok _).1, readLoop_result]
    refine ⟨fun _ => hres, (by intro e h; cases h), ?_, ?_, hfr⟩
    · rw [hres]; cases firstReadError reads <;> simp
    · intro err h
      rw [hres] at h
      cases hf : firstReadError reads with
      | none => rw [hf] at h; cases h
      | some e =>
        rw [hf] at h
        simp only [Outcome.returned.injEq] at h
        subst h
        exact ⟨by simp, Or.inr ⟨rfl, rfl⟩⟩

/-- Witness of C3: two undecodable frames, then a read error, then more input:
the call returns the read error. -/
theorem connectAndListen_error_propagation_witness :
    (connectAndListen ⟨none,
        [.msg notJson, .msg (.valid (.num "1")), .fail (.net "EOF"), .msg frameA]⟩).result
      = .returned (some (.net "EOF")) :=
  (connectAndListen_error_propagation ⟨none,
    [.msg notJson, .msg (.valid (.num "1")), .fail (.net "EOF"), .msg frameA]⟩).1 rfl

/-- C4 (dial failure). When the dial fails the call returns the dial error at
once: its only effect is the one failed dial, so no read, no send and no second
dial. -/
theorem connectAndListen_dial_failure (e : GoError) (reads : List ReadResult) :
    connectAndListen ⟨some e, reads⟩ = ⟨[.dial (some e)], .returned (some e)⟩
    ∧ Event.read ∉ (connectAndListen ⟨some e, reads⟩).trace
    ∧ sends (connectAndListen ⟨some e, reads⟩).trace = []
    ∧ dials (connectAndListen ⟨some e, reads⟩).trace = 1 := by
  simp [connectAndListen, sends, dials]

/-- Witness of C4: a refused dial, with frames that would have been there to read. -/
theorem connectAndListen_dial_failure_witness :
    connectAndListen ⟨some (.net "connection refused"), [.msg frameA, .fail (.net "EOF")]⟩
      = ⟨[.dial (some (.net "connection refused"))],
          .returned (some (.net "connection refused"))⟩ :=
  (connectAndListen_dial_failure (.net "connection refused")
    [.msg frameA, .fail (.net "EOF")]).1

/-! ## Connections and the supervisor -/

theorem connScan_append (o : Bool) (a b : List Event) :
    connScan o (a ++ b) = (connScan o a).bind (fun o1 => connScan o1 b) := by
  induction a generalizing o with
  | nil => rfl
  | cons x xs ih =>
    cases x <;> cases o <;> simp [connScan, ih]

/-- The read loop only reads and sends, on the open connection. -/
theorem connScan_readLoop (reads : List ReadResult) :
    connScan true (readLoop reads).trace = some true := by
  induction reads with
  | nil => rfl
  | cons r rest ih =>
    cases r with
    | fail e => rfl
    | msg f =>
      simp only [readLoop]
      cases unmarshal f <;> simp [connScan, ih]

theorem close_not_mem_readLoop (reads : List ReadResult) :
    Event.close ∉ (readLoop reads).trace := by
  induction reads with
  | nil => simp [readLoop]
  | cons r rest ih =>
    cases r with
    | fail e => simp [readLoop]
    | msg f =>
      simp only [readLoop]
      cases unmarshal f <;> simp [ih]

theorem sleeps_append (a b : List Event) : sleeps (a ++ b) = sleeps a ++ sleeps b := by
  induction a with
  | nil => rfl
  | cons x xs ih => cases x <;> simp [sleeps, ih]

theorem dials_append (a b : List Event) : dials (a ++ b) = dials a + dials b := by
  induction a with
  | nil => simp [dials]
  | cons x xs ih => cases x <;> simp +arith [dials, ih]

theorem sleeps_readLoop (reads : List ReadResult) : sleeps (readLoop reads).trace = [] := by
  induction reads with
  | nil => rfl
  | cons r rest ih =>
    cases r with
    | fail e => rfl
    | msg f =>
      simp only [readLoop]
      cases unmarshal f <;> simp [sleeps, ih]

theorem readLoop_returned_or_blocked (reads : List ReadResult) :
    (∃ err, (readLoop reads).result = .returned err) ∨ (readLoop reads).result = .blocked := by
  cases (readLoop reads).result <;> simp

theorem connectAndListen_returned (reads : List ReadResult) (err : Option GoError)
    (h : (readLoop reads).result = .returned err) :
    connectAndListen ⟨none, reads⟩
      = ⟨.dial none :: .log .connected :: ((readLoop reads).trace ++ [.close]), .returned err⟩ := by
  simp [connectAndListen, h]

theorem connectAndListen_blocked (reads : List ReadResult)
    (h : (readLoop reads).result = .blocked) :
    connectAndListen ⟨none, reads⟩
      = ⟨.dial none :: .log .connected :: (readLoop reads).trace, .blocked⟩ := by
  simp [connectAndListen, h]

/-- The connector itself never sleeps. -/
theorem sleeps_connectAndListen (s : Session) : sleeps (connectAndListen s).trace = [] := by
  obtain ⟨dial, reads⟩ := s
  cases dial with
  | some e => rfl
  | none =>
    rcases readLoop_returned_or_blocked reads with ⟨err, hr⟩ | hr
    · rw [connectAndListen_returned reads err hr]
      simp [sleeps, sleeps_append, sleeps_readLoop]
    · rw [connectAndListen_blocked reads hr]
      simp [sleeps, sleeps_readLoop]

/-- A call starts with no connection open; it leaves one open exactly when it is
still blocked in a read. -/
theorem connScan_connectAndListen (s : Session) :
    connScan false (connectAndListen s).trace
      = some (decide ((connectAndListen s).result = .blocked)) := by
  obtain ⟨dial, reads⟩ := s
  cases dial with
  | some e => rfl
  | none =>
    rcases readLoop_returned_or_blocked reads with ⟨err, hr⟩ | hr
    · rw [connectAndListen_returned reads err hr]
      simp [connScan, connScan_append, connScan_readLoop]
    · rw [connectAndListen_blocked reads hr]
      simp [connScan, connScan_readLoop]

theorem supervise_of_not_connecting (st : MainState) (rs : List Run)
    (h : st.phase ≠ .Connecting) : supervise st rs = st := by
  obtain ⟨p, a, t⟩ := st
  cases rs with
  | nil => rfl
  | cons r rs => cases p <;> simp_all [supervise]

theorem iteration_returned (st : MainState) (tr : List Event) (err : Option GoError) :
    iteration st ⟨tr, .returned err⟩
      = ⟨.Connecting, st.attempts + 1, st.trace ++ passTrace tr err⟩ := by
  cases err <;>
    simp [iteration, MainState.connect, MainState.stream, MainState.backoff, passTrace]

theorem iteration_blocked (st : MainState) (tr : List Event) :
    iteration st ⟨tr, .blocked⟩
      = ⟨.Streaming, st.attempts + 1, st.trace ++ .log .connecting :: tr⟩ := by
  simp [iteration, MainState.connect, MainState.stream]

/-- Against calls that all return, the loop makes one pass per call and is back at
the top of its body. -/
theorem supervise_returned (st : MainState) (hst : st.phase = .Connecting)
    (rets : List (List Event × Option GoError)) :
    supervise st (rets.map fun x => ⟨x.1, .returned x.2⟩)
      = ⟨.Connecting, st.attempts + rets.length,
          st.trace ++ (rets.map fun x => passTrace x.1 x.2).flatten⟩ := by
  induction rets generalizing st with
  | nil => cases st; simp_all [supervise]
  | cons x xs ih =>
    simp only [List.map_cons, supervise, hst, iteration_returned]
    rw [ih _ rfl]
    simp [Nat.add_assoc, Nat.add_comm 1]

theorem iteration_of_returned (st : MainState) (r : Run) (err : Option GoError)
    (h : r.result = .returned err) :
    iteration st r = ⟨.Connecting, st.attempts + 1, st.trace ++ passTrace r.trace err⟩ := by
  obtain ⟨tr, res⟩ := r
  simp only at h
  subst h
  exact iteration_returned st tr err

theorem iteration_of_blocked (st : MainState) (r : Run) (h : r.result = .blocked) :
    iteration st r = ⟨.Streaming, st.attempts + 1, st.trace ++ .log .connecting :: r.trace⟩ := by
  obtain ⟨tr, res⟩ := r
  simp only at h
  subst h
  exact iteration_blocked st tr

theorem supervise_append (st : MainState) (xs ys : List Run) :
    supervise st (xs ++ ys) = supervise (supervise st xs) ys := by
  induction xs generalizing st with
  | nil => rfl
  | cons x xs ih =>
    obtain ⟨p, a, t⟩ := st
    cases p
    · simp only [List.cons_append, supervise]
      exact ih _
    · simp only [List.cons_append, supervise]
      exact (supervise_of_not_connecting _ ys (by simp)).symm
    · simp only [List.cons_append, supervise]
      exact (supervise_of_not_connecting _ ys (by simp)).symm

theorem sends_passTrace (tr : List Event) (err : Option GoError) :
    sends (passTrace tr err) = sends tr := by
  cases err <;> simp [passTrace, sends, sends_append]

theorem sleeps_passTrace (tr : List Event) (err : Option GoError) :
    sleeps (passTrace tr err) = sleeps tr ++ [5 * Second] := by
  cases err <;> simp [passTrace, sleeps, sleeps_append]

theorem connectAndListen_result_cases (s : Session) :
    (∃ err, (connectAndListen s).result = .returned err)
    ∨ (connectAndListen s).result = .blocked := by
  cases (connectAndListen s).result <;> simp

/-- A call begins with its dial. -/
theorem connectAndListen_trace_head (s : Session) :
    ∃ tail, (connectAndListen s).trace = .dial s.dial :: tail := by
  obtain ⟨dial, reads⟩ := s
  cases dial with
  | some e => exact ⟨[], rfl⟩
  | none =>
    rcases readLoop_returned_or_blocked reads with ⟨err, hr⟩ | hr
    · rw [connectAndListen_returned reads err hr]; exact ⟨_, rfl⟩
    · rw [connectAndListen_blocked reads hr]; exact ⟨_, rfl⟩

/-- Across the passes of the loop no connection is left open, except the one of a
call still blocked in a read. -/
theorem connScan_supervise (sessions : List Session) (st : MainState)
    (hst : st.phase = .Connecting) (hscan : connScan false st.trace = some false) :
    connScan false (supervise st (sessions.map connectAndListen)).trace
      = some (decide ((supervise st (sessions.map connectAndListen)).phase = .Streaming)) := by
  induction sessions generalizing st with
  | nil => simp [supervise, hst, hscan]
  | cons s ss ih =>
    simp only [List.map_cons, supervise, hst]
    have hc := connScan_connectAndListen s
    rcases connectAndListen_result_cases s with ⟨err, hr⟩ | hr
    · rw [iteration_of_returned st _ err hr]
      apply ih ⟨.Connecting, _, _⟩ rfl
      rw [hr] at hc
      cases err <;>
        simp [passTrace, connScan_append, hscan, connScan, hc]
    · rw [iteration_of_blocked st _ hr, supervise_of_not_connecting _ _ (by simp)]
      rw [hr] at hc
      simp [connScan_append, hscan, connScan, hc]

/-- Against sessions that all return, the loop is back at the top of its body
with one sleep of five seconds per session and the sends of the sessions in order. -/
theorem supervise_returning (sessions : List Session) (st : MainState)
    (hst : st.phase = .Connecting)
    (hret : ∀ s ∈ sessions, (connectAndListen s).result ≠ .blocked) :
    (supervise st (sessions.map connectAndListen)).phase = .Connecting
    ∧ (supervise st (sessions.map connectAndListen)).attempts = st.attempts + sessions.length
    ∧ sleeps (supervise st (sessions.map connectAndListen)).trace
        = sleeps st.trace ++ List.replicate sessions.length (5 * Second)
    ∧ sends (supervise st (sessions.map connectAndListen)).trace
        = sends st.trace ++ (sessions.map fun s => sends (connectAndListen s).trace).flatten := by
  induction sessions generalizing st with
  | nil => simp [supervise, hst]
  | cons s ss ih =>
    simp only [List.map_cons, supervise, hst]
    rcases connectAndListen_result_cases s with ⟨err, hr⟩ | hr
    · rw [iteration_of_returned st _ err hr]
      obtain ⟨h1, h2, h3, h4⟩ := ih ⟨.Connecting, _, _⟩ rfl
        (fun x hx => hret x (List.mem_cons_of_mem _ hx))
      refine ⟨h1, ?_, ?_, ?_⟩
      · rw [h2]; simp +arith
      · rw [h3]
        simp [sleeps_append, sleeps_passTrace, sleeps_connectAndListen, List.replicate_succ]
      · rw [h4]
        simp [sends_append, sends_passTrace]
    · exact absurd hr (hret s (List.mem_cons_self _ _))

theorem dials_failed_passes (errs : List GoError) :
    dials ((errs.map fun e => ([Event.dial (some e)], some e)).map
      fun x => passTrace x.1 x.2).flatten = errs.length := by
  induction errs with
  | nil => rfl
  | cons e es ih =>
    rw [List.map_cons, List.map_cons, List.flatten_cons, dials_append, ih]
    simp +arith [passTrace, dials]

/-! ## Claims C5-C7 -/

/-- C5 (connection release). A call that returns after a successful dial closes
the connection exactly once, as its last effect, after every read and send. A call
whose dial fails performs no close. In the trace of `main` over any sequence of
sessions no dial happens while a connection is open: every opened connection is
closed before the next dial, and one is open at the end only when the last call is
still blocked in a read. -/
theorem connection_release (s : Session) (sessions : List Session) :
    (∀ err, s.dial = none → (connectAndListen s).result = .returned err →
      (connectAndListen s).trace
          = .dial none :: .log .connected :: ((readLoop s.reads).trace ++ [.close])
      ∧ Event.close ∉ (readLoop s.reads).trace
      ∧ (connectAndListen s).trace.count .close = 1
      ∧ (connectAndListen s).trace.getLast? = some .close)
    ∧ (s.dial ≠ none → Event.close ∉ (connectAndListen s).trace)
    ∧ connScan false (mainLoop sessions).trace
        = some (decide ((mainLoop sessions).phase = .Streaming)) := by
  refine ⟨?_, ?_, connScan_supervise sessions MainState.init rfl rfl⟩
  · intro err hd hr
    obtain ⟨dial, reads⟩ := s
    simp only at hd
    subst hd
    rw [(connectAndListen_dial_ok reads).1] at hr
    have hn := close_not_mem_readLoop reads
    rw [connectAndListen_returned reads err hr]
    refine ⟨rfl, hn, ?_, ?_⟩
    · simp [List.count_cons, List.count_append, List.count_eq_zero_of_not_mem hn]
    · rw [show Event.dial none :: Event.log .connected :: ((readLoop reads).trace ++ [Event.close])
          = (Event.dial none :: Event.log .connected :: (readLoop reads).trace) ++ [Event.close]
          from rfl, List.getLast?_append]
      rfl
  · intro hd
    obtain ⟨dial, reads⟩ := s
    cases dial with
    | none => exact absurd rfl hd
    | some e => simp [connectAndListen]

/-- Witness of C5: a session of two frames ended by a read error. -/
theorem connection_release_witness :
    (connectAndListen ⟨none, [.msg frameA, .msg frameB, .fail (.net "EOF")]⟩).trace
      = [.dial none, .log .connected, .read, .send "65000.10", .read, .send "65000.25",
         .read, .close] :=
  ((connection_release ⟨none, [.msg frameA, .msg frameB, .fail (.net "EOF")]⟩ []).1
    (some (.net "EOF")) rfl rfl).1

/-- C6 (P4, never terminates). The supervisor steps over the phases Connecting,
Streaming, Backoff, and every phase has its step: around a call that returns,
whatever it returns, a step leads to the next phase of the cycle and three steps
from Connecting are one pass of the loop. So for every finite sequence of returns
of the connector (`rets`: any effects, an error or `nil`) the loop of `main` is at
the top of its body again, having made as many attempts as there were returns,
its next step is the call that makes the next attempt, and one more run of the
connector is always taken. In particular after `n` failed dials `n` dials have
been made and the loop goes on. -/
theorem supervisor_never_terminates (rets : List (List Event × Option GoError))
    (errs : List GoError) :
    (∀ (st : MainState) (tr : List Event) (err : Option GoError),
      (st.step ⟨tr, .returned err⟩).phase = st.phase.next
      ∧ (st.phase = .Connecting →
          ((st.step ⟨tr, .returned err⟩).step ⟨tr, .returned err⟩).step ⟨tr, .returned err⟩
            = iteration st ⟨tr, .returned err⟩))
    ∧ (supervise MainState.init (rets.map fun x => ⟨x.1, .returned x.2⟩)).phase = .Connecting
    ∧ (supervise MainState.init (rets.map fun x => ⟨x.1, .returned x.2⟩)).attempts = rets.length
    ∧ (supervise MainState.init (rets.map fun x => ⟨x.1, .returned x.2⟩)).connect.phase
        = .Streaming
    ∧ (supervise MainState.init (rets.map fun x => ⟨x.1, .returned x.2⟩)).connect.attempts
        = rets.length + 1
    ∧ (∀ r : Run,
        (supervise MainState.init ((rets.map fun x => ⟨x.1, .returned x.2⟩) ++ [r])).attempts
          = rets.length + 1)
    ∧ (mainLoop (errs.map fun e => ⟨some e, []⟩)).phase = .Connecting
    ∧ (mainLoop (errs.map fun e => ⟨some e, []⟩)).attempts = errs.length
    ∧ dials (mainLoop (errs.map fun e => ⟨some e, []⟩)).trace = errs.length := by
  have h := supervise_returned MainState.init rfl rets
  refine ⟨?_, by rw [h], by rw [h]; simp [MainState.init], by rw [h]; rfl,
    by rw [h]; simp [MainState.init, MainState.connect], ?_, ?_⟩
  · intro st tr err
    obtain ⟨p, a, t⟩ := st
    refine ⟨?_, ?_⟩
    · cases p <;> cases err <;>
        simp [MainState.step, MainState.connect, MainState.stream, MainState.backoff, Phase.next]
    · intro hp
      simp only at hp
      subst hp
      cases err <;>
        simp [MainState.step, MainState.connect, MainState.stream, MainState.backoff, iteration]
  · intro r
    rw [supervise_append, h]
    obtain ⟨tr, res⟩ := r
    cases res with
    | returned err => simp [supervise, iteration_returned, MainState.init]
    | blocked => simp [supervise, iteration_blocked, MainState.init]
  · have hm : mainLoop (errs.map fun e => ⟨some e, []⟩)
        = supervise MainState.init ((errs.map fun e => ([Event.dial (some e)], some e)).map
            fun x => (⟨x.1, .returned x.2⟩ : Run)) := by
      simp [mainLoop, List.map_map, Function.comp_def, connectAndListen]
    have h2 := supervise_returned MainState.init rfl
      (errs.map fun e => ([Event.dial (some e)], some e))
    rw [hm, h2]
    exact ⟨rfl, by simp [MainState.init], by
      simpa [MainState.init] using dials_failed_passes errs⟩

/-- Witness of C6: three failed dials in a row; three dials are made and the loop
is at the top of its body, about to make the fourth attempt. -/
theorem supervisor_never_terminates_witness :
    (mainLoop [⟨some (.net "timeout"), []⟩, ⟨some (.net "timeout"), []⟩,
        ⟨some (.net "refused"), []⟩]).phase = .Connecting
    ∧ dials (mainLoop [⟨some (.net "timeout"), []⟩, ⟨some (.net "timeout"), []⟩,
        ⟨some (.net "refused"), []⟩]).trace = 3 :=
  have h := supervisor_never_terminates []
    [.net "timeout", .net "timeout", .net "refused"]
  ⟨h.2.2.2.2.2.2.1, h.2.2.2.2.2.2.2.2⟩

/-- C7 (P3, reconnect on failure). Each pass of the loop around a call that
returns, whether with an error or with `nil`, is: log, the call's effects, the log
of the error when there is one, log, one sleep of `5 * time.Second` (first part,
for any returns `rets`). So over sessions that all return, the sleeps are one of
five seconds per session, the loop is ready for the next attempt and a further
session starts with its dial right after the last sleep, and the values sent are
the concatenation, in session order, of what each session sent: nothing is sent
again. -/
theorem supervisor_reconnects (rets : List (List Event × Option GoError))
    (sessions : List Session) (next : Session)
    (hret : ∀ s ∈ sessions, (connectAndListen s).result ≠ .blocked) :
    (supervise MainState.init (rets.map fun x => ⟨x.1, .returned x.2⟩)).trace
      = (rets.map fun x => passTrace x.1 x.2).flatten
    ∧ sleeps (mainLoop sessions).trace = List.replicate sessions.length (5 * Second)
    ∧ sends (mainLoop sessions).trace
        = (sessions.map fun s => sends (connectAndListen s).trace).flatten
    ∧ (mainLoop sessions).phase = .Connecting
    ∧ (∃ tail, (mainLoop (sessions ++ [next])).trace
        = (mainLoop sessions).trace ++ .log .connecting :: .dial next.dial :: tail) := by
  obtain ⟨h1, _, h3, h4⟩ := supervise_returning sessions MainState.init rfl hret
  refine ⟨by rw [supervise_returned MainState.init rfl rets]; rfl, ?_, ?_, h1, ?_⟩
  · simpa [mainLoop, MainState.init, sleeps] using h3
  · simpa [mainLoop, MainState.init, sends] using h4
  · obtain ⟨tl, htl⟩ := connectAndListen_trace_head next
    have hsplit : mainLoop (sessions ++ [next])
        = iteration (mainLoop sessions) (connectAndListen next) := by
      simp only [mainLoop, List.map_append, List.map_cons, List.map_nil, supervise_append]
      simp only [supervise, h1]
    rw [hsplit]
    rcases connectAndListen_result_cases next with ⟨err, hr⟩ | hr
    · rw [iteration_of_returned _ _ err hr, htl]
      exact ⟨_, rfl⟩
    · rw [iteration_of_blocked _ _ hr, htl]
      exact ⟨_, rfl⟩

/-- Witness of C7: a session cut by a read error after two frames, then a session
cut after one frame: two sleeps of five seconds and the three prices, each once. -/
theorem supervisor_reconnects_witness :
    sleeps (mainLoop [⟨none, [.msg frameA, .msg frameB, .fail (.net "EOF")]⟩,
        ⟨none, [.msg frameB, .fail (.net "reset")]⟩]).trace
      = [5000000000, 5000000000]
    ∧ sends (mainLoop [⟨none, [.msg frameA, .msg frameB, .fail (.net "EOF")]⟩,
        ⟨none, [.msg frameB, .fail (.net "reset")]⟩]).trace
      = ["65000.10", "65000.25", "65000.25"] :=
  have h := supervisor_reconnects []
    [⟨none, [.msg frameA, .msg frameB, .fail (.net "EOF")]⟩,
     ⟨none, [.msg frameB, .fail (.net "reset")]⟩] ⟨none, []⟩ (by decide)
  ⟨h.2.1, h.2.2.1⟩

/-! ## Claims C8 and C10: what is decoded -/

/-- Members that match no `Price` key leave the price field as it was. -/
theorem foldl_storeMember_price (ms : List (String × JValue))
    (h : ∀ kv ∈ ms, fieldOf kv.1 ≠ some .Price) (d : DecodeState) :
    (ms.foldl storeMember d).ticker.Price = d.ticker.Price := by
  induction ms generalizing d with
  | nil => rfl
  | cons kv ms ih =>
    rw [List.foldl_cons, ih (fun x hx => h x (List.mem_cons_of_mem _ hx))]
    have hkv := h kv (List.mem_cons_self _ _)
    obtain ⟨k, v⟩ := kv
    unfold storeMember
    cases hf : fieldOf k with
    | none => rfl
    | some fld =>
      cases fld with
      | Price => exact absurd hf hkv
      | Symbol =>
        cases v <;> simp only [BinanceTicker.set, DecodeState.saveError] <;>
          cases d.saved <;> rfl

/-- A value that decodes and has no member stored into `Price` leaves the price
empty. -/
theorem decodeValue_without_price (v : JValue) (t : BinanceTicker)
    (hdec : decodeValue v = .ok t) (hno : (Frame.valid v).hasField .Price = false) :
    t.Price = "" := by
  match v with
  | .null => simp only [decodeValue, Except.ok.injEq] at hdec; subst hdec; rfl
  | .bool _ => simp [decodeValue] at hdec
  | .num _ => simp [decodeValue] at hdec
  | .str _ => simp [decodeValue] at hdec
  | .arr _ => simp [decodeValue] at hdec
  | .obj ms =>
    have hp := foldl_storeMember_price ms (by
      intro kv hkv hf
      simp only [Frame.hasField, List.any_eq_false, decide_eq_true_eq] at hno
      exact hno kv hkv hf) ⟨BinanceTicker.zero, none⟩
    simp only [decodeValue] at hdec
    cases hs : (List.foldl storeMember ⟨BinanceTicker.zero, none⟩ ms).saved with
    | none =>
      simp only [hs, Except.ok.injEq] at hdec
      subst hdec
      rw [hp]
      rfl
    | some e => simp [hs] at hdec

/-- A frame that decodes and has no member stored into `Price` publishes the
empty string. -/
theorem published_without_price (f : Frame) (hdec : decodes f = true)
    (hno : f.hasField .Price = false) : published f = some "" := by
  unfold decodes at hdec
  unfold published
  match f with
  | .malformed _ => simp [unmarshal] at hdec
  | .valid v =>
    rcases unmarshal_cases (.valid v) with ⟨t, hu⟩ | ⟨e, hu⟩
    · rw [hu]
      simp only
      rw [decodeValue_without_price v t (decodeValue_of_unmarshal v t hu) hno]
    · rw [hu] at hdec
      cases hdec

theorem published_toList_length (f : Frame) :
    (published f).toList.length = if decodes f = true then 1 else 0 := by
  unfold published decodes
  cases unmarshal f <;> simp

/-- The loop sends one value per frame that decodes. -/
theorem sends_readLoop_length (reads : List ReadResult) :
    (sends (readLoop reads).trace).length = ((framesRead reads).filter decodes).length := by
  induction reads with
  | nil => rfl
  | cons r rest ih =>
    cases r with
    | fail e => rfl
    | msg f =>
      rw [(readLoop_msg f rest).2, List.length_append, ih, published_toList_length]
      simp only [framesRead, List.filter_cons]
      cases decodes f <;> simp +arith

/-- Counterexample to C8 as stated, at two frames that hold strings under `s` and
`c` and one further key other than `s` and `c`. For
`{"s":"BTCUSDT","c":"65000.10","C":1}` the decode fails on the member `C` and
nothing is sent. For the frame whose further member `x` is nested 10000 arrays
deep the scan fails and nothing is sent. -/
theorem permissive_decoding_counterexample :
    isPermissiveTickerFrame frameUpperC "BTCUSDT" "65000.10" = true
    ∧ unmarshal frameUpperC = .error (.jsonType "number" "c")
    ∧ sends (connectAndListen ⟨none, [.msg frameUpperC, .fail (.net "EOF")]⟩).trace = []
    ∧ isPermissiveTickerFrame frameDeep "BTCUSDT" "65000.10" = true
    ∧ unmarshal frameDeep = .error .jsonSyntax
    ∧ sends (connectAndListen ⟨none, [.msg frameDeep, .fail (.net "EOF")]⟩).trace = [] :=
  ⟨by decide, rfl, by decide, isPermissiveTickerFrame_frameDeep, unmarshal_frameDeep, by
    rw [sends_connect_msg, published_frameDeep]; rfl⟩

/-- C8, amended (permissive decoding). For every frame that is a JSON object
holding the string `price` under `c`, a string `sym` under `s`, and any further
members whose keys match neither field (any key but `s`, `c`, `S`, `C` and the
long s), with arbitrary values, the whole nested no deeper than
`maxNestingDepth`: the decode succeeds with the same result as for the object of
the two members alone, and the value sent is exactly `price`. -/
theorem permissive_decoding (f : Frame) (sym price : String) (rest : List ReadResult)
    (h : isTickerFrame f sym price = true) :
    unmarshal f = .ok ⟨sym, price⟩
    ∧ unmarshal f = unmarshal (.valid (.obj [("s", .str sym), ("c", .str price)]))
    ∧ sends (connectAndListen ⟨none, .msg f :: rest⟩).trace
        = price :: sends (connectAndListen ⟨none, rest⟩).trace := by
  have hu := unmarshal_tickerFrame f sym price h
  refine ⟨hu, ?_, ?_⟩
  · rw [hu]
    exact (unmarshal_tickerFrame _ sym price (by
      simp [isTickerFrame, tickerMembers, tickerMember, hasKey, JValue.isStr,
        JValue.depth, depthMembers, maxNestingDepth])).symm
  · rw [(connectAndListen_dial_ok _).2, (connectAndListen_dial_ok _).2, (readLoop_msg f rest).2,
      published_tickerFrame f sym price h]
    rfl

/-- Witness of C8, amended: a mini-ticker frame with four further members. -/
theorem permissive_decoding_witness :
    isTickerFrame frameMiniTicker "BTCUSDT" "65000.10" = true
    ∧ unmarshal frameMiniTicker = .ok ⟨"BTCUSDT", "65000.10"⟩ :=
  ⟨by decide, (permissive_decoding frameMiniTicker "BTCUSDT" "65000.10" [] (by decide)).1⟩

/-- Counterexample to C10 as stated: `{"C":"5"}` is valid JSON, decodes without
error and carries no `c` key, and the value sent for it is `5`, not the empty
string. -/
theorem missing_price_counterexample :
    frameOnlyUpperC.hasKey "c" = false
    ∧ decodes frameOnlyUpperC = true
    ∧ published frameOnlyUpperC = some "5"
    ∧ sends (connectAndListen ⟨none, [.msg frameOnlyUpperC, .fail (.net "EOF")]⟩).trace
        = ["5"] :=
  ⟨by decide, by decide, rfl, by decide⟩

/-- C10, amended (missing price key). For every frame that decodes without error
and carries no key stored into `Price` (neither `c` nor `C`), the frame is not
skipped: the empty string is sent for it. In every session the number of values
sent equals the number of frames read that decode without error. -/
theorem missing_price_sends_empty (f : Frame) (rest reads : List ReadResult)
    (hdec : decodes f = true) (hno : f.hasField .Price = false) :
    published f = some ""
    ∧ sends (connectAndListen ⟨none, .msg f :: rest⟩).trace
        = "" :: sends (connectAndListen ⟨none, rest⟩).trace
    ∧ (sends (connectAndListen ⟨none, reads⟩).trace).length
        = ((framesRead reads).filter decodes).length := by
  have hp := published_without_price f hdec hno
  refine ⟨hp, ?_, ?_⟩
  · rw [(connectAndListen_dial_ok _).2, (connectAndListen_dial_ok _).2, (readLoop_msg f rest).2, hp]
    rfl
  · rw [(connectAndListen_dial_ok _).2, sends_readLoop_length]

/-- Witness of C10, amended: the frames `{"s":"BTCUSDT"}` and `{}` around a valid
frame give the sent list empty string, price, empty string. -/
theorem missing_price_sends_empty_witness :
    sends (connectAndListen ⟨none,
        [.msg frameNoPrice, .msg frameA, .msg (.valid (.obj [])), .fail (.net "EOF")]⟩).trace
      = ["", "65000.10", ""] :=
  (missing_price_sends_empty frameNoPrice
    [.msg frameA, .msg (.valid (.obj [])), .fail (.net "EOF")] [] (by decide) (by decide)).2.1

/-! ## Claim C9: the handoff on the unbuffered channel -/

theorem sysInv_init (reads : List ReadResult) : SysInv reads (Sys.init reads) := by
  simp [SysInv, Sys.init, ConnPc.inFlight, Sys.remaining]

theorem sysInv_readStep (reads0 : List ReadResult) (s : Sys) (hc : s.conn = .reading)
    (h : SysInv reads0 s) : SysInv reads0 s.readStep := by
  obtain ⟨reads, conn, sink, decoded, sent, received⟩ := s
  simp only at hc
  subst hc
  obtain ⟨h1, h2, h3⟩ := h
  simp only [ConnPc.inFlight, Sys.remaining, List.append_nil] at h1 h2 h3
  cases reads with
  | nil => exact ⟨h1, by simpa [Sys.readStep, ConnPc.inFlight] using h2,
      by simpa [Sys.readStep, Sys.remaining] using h3⟩
  | cons r rest =>
    cases r with
    | fail e =>
      refine ⟨h1, by simpa [Sys.readStep, ConnPc.inFlight] using h2, ?_⟩
      simpa [Sys.readStep, Sys.remaining, readLoop, sends] using h3
    | msg f =>
      have hm := (readLoop_msg f rest).2
      unfold published at hm
      simp only [Sys.readStep]
      cases hu : unmarshal f with
      | error e =>
        rw [hu] at hm
        refine ⟨h1, by simpa [ConnPc.inFlight] using h2, ?_⟩
        simp only [Sys.remaining]
        rw [← h3, hm]
        rfl
      | ok t =>
        rw [hu] at hm
        refine ⟨h1, by simp [ConnPc.inFlight, h2], ?_⟩
        simp only [Sys.remaining]
        rw [← h3, hm]
        simp

theorem sysInv_handoff (reads0 : List ReadResult) (s : Sys) (v : String)
    (hc : s.conn = .sending v) (h : SysInv reads0 s) : SysInv reads0 (s.handoff v) := by
  obtain ⟨reads, conn, sink, decoded, sent, received⟩ := s
  simp only at hc
  subst hc
  obtain ⟨h1, h2, h3⟩ := h
  simp only [ConnPc.inFlight, Sys.remaining] at h1 h2 h3
  exact ⟨by simp [Sys.handoff, h1], by simp [Sys.handoff, ConnPc.inFlight, h2],
    by simpa [Sys.handoff, Sys.remaining] using h3⟩

/-- Every scheduling step keeps the invariant. -/
theorem sysInv_step (reads0 : List ReadResult) (s : Sys) (p : Proc) (h : SysInv reads0 s) :
    SysInv reads0 (sysStep s p) := by
  unfold sysStep
  split
  · next hc => exact sysInv_readStep reads0 s hc h
  · next hc _ => exact sysInv_handoff reads0 s _ hc h
  · exact h
  · exact h
  · obtain ⟨h1, h2, h3⟩ := h
    exact ⟨h1, h2, h3⟩
  · next hc _ => exact sysInv_handoff reads0 s _ hc h
  · exact h

theorem sysInv_foldl (reads0 : List ReadResult) (schedule : List Proc) (s : Sys)
    (h : SysInv reads0 s) : SysInv reads0 (schedule.foldl sysStep s) := by
  induction schedule generalizing s with
  | nil => exact h
  | cons p ps ih => exact ih _ (sysInv_step reads0 s p h)

/-- A step consumes a read only when the connector is in `ReadMessage`. -/
theorem sysStep_reads (s : Sys) (p : Proc) (h : (sysStep s p).reads ≠ s.reads) :
    s.conn = .reading := by
  unfold sysStep at h
  split at h
  · next hc => exact hc
  · exact absurd rfl h
  · exact absurd rfl h
  · exact absurd rfl h
  · exact absurd rfl h
  · exact absurd rfl h
  · exact absurd rfl h

/-- From a state with the connector in `ReadMessage` and the sink in its receive,
the serving schedule hands every price of the reads left to the sink. -/
theorem deliver_received (s : Sys) (hc : s.conn = .reading) (hk : s.sink = .receiving) :
    ((deliverSchedule s.reads).foldl sysStep s).received
      = s.received ++ sends (readLoop s.reads).trace := by
  obtain ⟨reads, conn, sink, decoded, sent, received⟩ := s
  simp only at hc hk
  subst hc hk
  induction reads generalizing decoded sent received with
  | nil => simp [deliverSchedule, readLoop, sends]
  | cons r rest ih =>
    cases r with
    | fail e => simp [deliverSchedule, readLoop, sends, sysStep, Sys.readStep]
    | msg f =>
      have hm := (readLoop_msg f rest).2
      unfold published at hm
      rcases unmarshal_cases f with ⟨t, hu⟩ | ⟨e, hu⟩
      · have hd : decodes f = true := by simp [decodes, hu]
        rw [hu] at hm
        simp only [deliverSchedule, hd, if_true, List.cons_append, List.nil_append,
          List.foldl_cons, sysStep, Sys.readStep, hu, Sys.handoff]
        rw [ih, hm]
        simp
      · have hd : decodes f = false := by simp [decodes, hu]
        rw [hu] at hm
        simp only [deliverSchedule, hd, Bool.false_eq_true, if_false, List.cons_append,
          List.nil_append, List.foldl_cons, sysStep, Sys.readStep, hu]
        rw [ih, hm]
        rfl

/-- Three steps of the sink let it finish and take the price in flight: it is in
its receive again, holding every decoded price, and the connector is not left in
a send. -/
theorem settle (reads0 : List ReadResult) (s : Sys) (h : SysInv reads0 s) :
    ([Proc.sink, .sink, .sink].foldl sysStep s).sink = .receiving
    ∧ ([Proc.sink, .sink, .sink].foldl sysStep s).received = s.decoded
    ∧ ([Proc.sink, .sink, .sink].foldl sysStep s).reads = s.reads
    ∧ (([Proc.sink, .sink, .sink].foldl sysStep s).conn = .reading ∧ (∀ e, s.conn ≠ .done e)
       ∨ ∃ e, ([Proc.sink, .sink, .sink].foldl sysStep s).conn = .done e ∧ s.conn = .done e) := by
  obtain ⟨reads, conn, sink, decoded, sent, received⟩ := s
  obtain ⟨_, h2, _⟩ := h
  simp only at h2
  cases conn <;> cases sink <;>
    simp [sysStep, Sys.handoff, ConnPc.inFlight, h2] at h2 ⊢

/-- Once the connector has returned and the sink waits, nothing changes any more. -/
theorem done_stutter (s : Sys) (e : GoError) (hc : s.conn = .done e)
    (hk : s.sink = .receiving) (schedule : List Proc) : schedule.foldl sysStep s = s := by
  induction schedule with
  | nil => rfl
  | cons p ps ih =>
    have hp : sysStep s p = s := by
      obtain ⟨reads, conn, sink, decoded, sent, received⟩ := s
      simp only at hc hk
      subst hc hk
      cases p <;> simp [sysStep]
    rw [List.foldl_cons, hp, ih]

/-- From any state that keeps the invariant, the draining schedule brings every
price of the session to the sink. -/
theorem drain_received (reads0 : List ReadResult) (s : Sys) (h : SysInv reads0 s) :
    ((drainSchedule s).foldl sysStep s).received = sends (readLoop reads0).trace := by
  obtain ⟨hk, hr, hreads, hconn⟩ := settle reads0 s h
  obtain ⟨_, _, h3⟩ := h
  unfold drainSchedule
  rw [List.foldl_append]
  rcases hconn with ⟨hc, hnd⟩ | ⟨e, hc, hd⟩
  · rw [← hreads, deliver_received _ hc hk, hr, hreads, ← h3]
    congr 1
    unfold Sys.remaining
    cases hs : s.conn with
    | done e => exact absurd hs (hnd e)
    | reading => rfl
    | sending v => rfl
  · rw [done_stutter _ e hc hk, hr, ← h3]
    simp [Sys.remaining, hd]

/-- C9 (P5, blocking handoff). For every script of reads and every interleaving
of the connector and the sink, however long the sink stays busy: the sends
completed are the receives completed (so never more sends than receives); every
decoded price has been received or is the single one in flight, so none is
dropped; a step takes the next frame from the connection only when the sink has
received every decoded price; what the sink has received is a prefix of the
decoded prices, which are a prefix of the prices the session publishes; and from
that state on, the draining schedule brings all of them to the sink. -/
theorem blocking_handoff (reads : List ReadResult) (schedule : List Proc) :
    (sysRun reads schedule).sent = (sysRun reads schedule).received
    ∧ (sysRun reads schedule).sent.length ≤ (sysRun reads schedule).received.length
    ∧ (sysRun reads schedule).decoded
        = (sysRun reads schedule).received ++ (sysRun reads schedule).conn.inFlight
    ∧ (sysRun reads schedule).conn.inFlight.length ≤ 1
    ∧ (∀ p, (sysStep (sysRun reads schedule) p).reads ≠ (sysRun reads schedule).reads →
        (sysRun reads schedule).received = (sysRun reads schedule).decoded)
    ∧ (sysRun reads schedule).received <+: (sysRun reads schedule).decoded
    ∧ (sysRun reads schedule).decoded <+: sends (connectAndListen ⟨none, reads⟩).trace
    ∧ (sysRun reads (schedule ++ drainSchedule (sysRun reads schedule))).received
        = sends (connectAndListen ⟨none, reads⟩).trace := by
  have hinv : SysInv reads (sysRun reads schedule) :=
    sysInv_foldl reads schedule _ (sysInv_init reads)
  have hinv2 := hinv
  obtain ⟨h1, h2, h3⟩ := hinv
  rw [(connectAndListen_dial_ok reads).2]
  refine ⟨h1, by rw [h1], h2, ?_, ?_, ?_, ?_, ?_⟩
  · cases (sysRun reads schedule).conn <;> simp [ConnPc.inFlight]
  · intro p hp
    rw [h2, sysStep_reads _ p hp]
    simp [ConnPc.inFlight]
  · exact ⟨_, h2.symm⟩
  · exact ⟨_, h3⟩
  · have := drain_received reads _ hinv2
    simpa [sysRun, List.foldl_append] using this

/-- Witness of C9: the sink stays busy with the first price while the connector
is scheduled six times; the second price waits in the send and the third frame
is not read. -/
theorem blocking_handoff_witness :
    (sysRun [.msg frameA, .msg frameB, .msg frameA, .fail (.net "EOF")]
        [.connector, .connector, .connector, .connector, .connector, .connector]).received
      = ["65000.10"]
    ∧ (sysRun [.msg frameA, .msg frameB, .msg frameA, .fail (.net "EOF")]
        [.connector, .connector, .connector, .connector, .connector, .connector]).decoded
      = ["65000.10", "65000.25"] :=
  have h := blocking_handoff [.msg frameA, .msg frameB, .msg frameA, .fail (.net "EOF")]
    [.connector, .connector, .connector, .connector, .connector, .connector]
  ⟨by decide, h.2.2.1.trans (by decide)⟩

end GoCollector
